import Mathlib

/-!
# The task list of the to-do application (`script.js`)

The program keeps one global array `tasks` of task objects and mutates it from
event handlers.  The development below embeds that array as a `List Task` and
every handler as a function from the old array to the new one.

Conventions of the embedding:

* a string is a list of Unicode characters (`Str`);
* a number is a `JSNumber`: the finite values are the integers (every id the
  program creates itself is `Date.now()`, an integer count of milliseconds),
  and the two infinities are kept because `JSON.parse` produces them for
  literals beyond the double range and `JSON.stringify` prints them as `null`;
* a value read from a JSON file is a `Json` tree; `JSON.parse` and
  `JSON.stringify` are platform functions and are modelled on trees, not on
  the text between them;
* the clock (`Date.now()`, `new Date()`) is an explicit argument;
* the calendar (`toDateString`, `setDate`) is an explicit argument
  `localDay`, giving the local day number of a stored timestamp.
-/

namespace TodoApp

/-- Strings of the program, as lists of characters. -/
abbrev Str := List Char

/-- Numbers of the program: integer-valued finite numbers and the infinities. -/
inductive JSNumber
  | finite (n : Int)
  | posInf
  | negInf
  deriving DecidableEq, Repr

/-- Values produced by `JSON.parse`.  The members of an object are listed in
the order of the text; a repeated key takes its last value. -/
inductive Json
  | null
  | bool (b : Bool)
  | num (n : JSNumber)
  | str (s : Str)
  | arr (items : List Json)
  | obj (members : List (String × Json))

/-- Property read `value.key`: `none` stands for `undefined`. -/
def Json.get (key : String) : Json → Option Json
  | .obj members => (members.reverse.find? (fun m => m.1 == key)).map (fun m => m.2)
  | _ => none

/-- Modelled from the spec: the option values of the `#priority` select, which
is declared in the page markup and not in the script; the spec gives
`priority` as one of low, medium, high. -/
inductive Priority
  | low
  | medium
  | high
  deriving DecidableEq, Repr

/-- Contents of the `completedAt` property of a task in memory. -/
inductive Timestamp
  | absent
  | date (ms : Int)
  | json (v : Json)

/-- A task object of the `tasks` array. `dueDate` is `none` when the property
is missing (possible for an imported object). -/
structure Task where
  id : JSNumber
  text : Str
  priority : Priority
  dueDate : Option Json
  completed : Bool
  completedAt : Timestamp

/-- The property holds a value other than `undefined` and `null`. -/
def Timestamp.isPresent : Timestamp → Bool
  | .absent => false
  | .date _ => true
  | .json .null => false
  | .json _ => true

/-- Errors thrown by a handler. -/
inductive JSError
  | typeError
  deriving DecidableEq, Repr

/-! ## Strings -/

/-- White space and line terminators removed by `String.prototype.trim`. -/
def isWhiteSpace (c : Char) : Bool :=
  c.toNat ∈ [0x09, 0x0A, 0x0B, 0x0C, 0x0D, 0x20, 0xA0, 0x1680, 0x2028, 0x2029,
    0x202F, 0x205F, 0x3000, 0xFEFF]
    || (0x2000 ≤ c.toNat && c.toNat ≤ 0x200A)

/-- Model of `s.trim()`. -/
def trim (s : Str) : Str :=
  ((s.dropWhile isWhiteSpace).reverse.dropWhile isWhiteSpace).reverse

/-- The double quote character. -/
def dquote : Char := Char.ofNat 34

/-- The single quote character. -/
def squote : Char := Char.ofNat 39

/-- The replacement table of `addTask` (script.js lines 59-65), entry by
entry: the ampersand and the single quote are mapped to entities, the other
three characters to themselves. -/
def escapeChar (c : Char) : Str :=
  if c = '&' then "&amp;".toList
  else if c = '<' then "<".toList
  else if c = '>' then ">".toList
  else if c = dquote then [dquote]
  else if c = squote then "&#39;".toList
  else [c]

/-- Model of the global `text.replace` of `addTask`: every character of the
class (ampersand, angle brackets, both quotes) is replaced by its table entry,
every other character is kept. -/
def escapeText (text : Str) : Str :=
  text.flatMap escapeChar

/-- Model of `hay.startsWith(needle)`, used by `includes`. -/
def startsWith : Str → Str → Bool
  | _, [] => true
  | [], _ :: _ => false
  | h :: hs, n :: ns => h == n && startsWith hs ns

/-- Model of `hay.includes(needle)`. -/
def includes : Str → Str → Bool
  | [], needle => needle.isEmpty
  | h :: hs, needle => startsWith (h :: hs) needle || includes hs needle

/-- Lower-casing of ASCII text, where it agrees with `toLowerCase`. -/
def asciiLower (s : Str) : Str :=
  s.map Char.toLower

/-! ## The handlers -/

/-- Model of `addTask` (script.js lines 53-74). `now` is `Date.now()`,
`inputValue`, `priority` and `dueDate` are the values of the three inputs. -/
def addTask (now : Int) (inputValue : Str) (priority : Priority) (dueDate : Str)
    (tasks : List Task) : List Task :=
  let text := trim inputValue
  if text = [] then tasks
  else
    let escapedText := escapeText text
    { id := .finite now, text := escapedText, priority := priority,
      dueDate := some (.str dueDate), completed := false,
      completedAt := .absent } :: tasks

/-- The filter of `renderTasks` (script.js lines 78-84). `toLowerCase` is the
platform function, `searchValue` and `filterValue` the values of the search box
and of the filter select. -/
def filteredTasks (toLowerCase : Str → Str) (searchValue : Str) (filterValue : String)
    (tasks : List Task) : List Task :=
  tasks.filter fun task =>
    let matchesSearch := includes (toLowerCase task.text) (toLowerCase searchValue)
    let matchesFilter := filterValue == "all" ||
      (filterValue == "pending" && !task.completed) ||
      (filterValue == "completed" && task.completed)
    matchesSearch && matchesFilter

/-- In-place update of the object returned by `tasks.find(p)`: the first
element satisfying `p` is replaced by its image. -/
def updateFirst (p : Task → Bool) (f : Task → Task) : List Task → List Task
  | [] => []
  | t :: ts => if p t then f t :: ts else t :: updateFirst p f ts

/-- The two assignments of the toggle branch (script.js lines 283-284 and
311-312). -/
def flipCompleted (now : Int) (task : Task) : Task :=
  let completed := !task.completed
  { task with completed := completed,
              completedAt := if completed then .date now else .json .null }

/-- The toggle branch of the click handler and the keydown handler
(script.js lines 282-284, 310-312): `find` yields `undefined` for an unknown
id and the assignment to its property throws. -/
def toggleComplete (now : Int) (id : JSNumber) (tasks : List Task) :
    Except JSError (List Task) :=
  match tasks.find? (fun t => t.id == id) with
  | none => .error .typeError
  | some _ => .ok (updateFirst (fun t => t.id == id) (flipCompleted now) tasks)

/-- Model of `editTask` followed by `saveEdit` (script.js lines 174-203). -/
def editTask (id : JSNumber) (newText : Str) (tasks : List Task) : List Task :=
  match tasks.find? (fun t => t.id == id) with
  | none => tasks
  | some task =>
    if newText ≠ task.text then
      updateFirst (fun t => t.id == id) (fun t => { t with text := newText }) tasks
    else tasks

/-- The delete branch of the click handler (script.js line 295). -/
def deleteTask (id : JSNumber) (tasks : List Task) : List Task :=
  tasks.filter (fun t => t.id != id)

/-- The clear-all handler after confirmation (script.js line 329). -/
def clearAll (_tasks : List Task) : List Task := []

/-! ## Import and export -/

/-- Test `task && typeof task === 'object'`: arrays are objects too. -/
def Json.isObject : Json → Bool
  | .arr _ => true
  | .obj _ => true
  | _ => false

/-- Test `typeof v === 'number'` on a property read. -/
def isNumber : Option Json → Bool
  | some (.num _) => true
  | _ => false

/-- Test `typeof v === 'string'` on a property read. -/
def isString : Option Json → Bool
  | some (.str _) => true
  | _ => false

/-- Test `typeof v === 'boolean'` on a property read. -/
def isBoolean : Option Json → Bool
  | some (.bool _) => true
  | _ => false

/-- The array literal of the validation (script.js line 248). -/
def priorityNames : List Str :=
  ["low".toList, "medium".toList, "high".toList]

/-- Test `priorityNames.includes(v)` on a property read. -/
def isListedPriority : Option Json → Bool
  | some (.str s) => priorityNames.contains s
  | _ => false

/-- The validation predicate of the import (script.js lines 244-250). -/
def isValidTask (task : Json) : Bool :=
  task.isObject &&
  isNumber (task.get "id") &&
  isString (task.get "text") &&
  isListedPriority (task.get "priority") &&
  isBoolean (task.get "completed")

/-- The priority named by a string. -/
def Priority.ofStr? (s : Str) : Option Priority :=
  if s = "low".toList then some .low
  else if s = "medium".toList then some .medium
  else if s = "high".toList then some .high
  else none

/-- The name of a priority, as stored in the task object. -/
def Priority.toStr : Priority → Str
  | .low => "low".toList
  | .medium => "medium".toList
  | .high => "high".toList

/-- The task the program sees in a parsed object: the six properties it
reads. Defined exactly on the objects accepted by `isValidTask`. -/
def readTask (task : Json) : Option Task :=
  match task.get "id", task.get "text", task.get "priority", task.get "completed" with
  | some (.num id), some (.str text), some (.str p), some (.bool completed) =>
    (Priority.ofStr? p).map fun priority =>
      { id := id, text := text, priority := priority,
        dueDate := task.get "dueDate", completed := completed,
        completedAt :=
          match task.get "completedAt" with
          | none => .absent
          | some v => .json v }
  | _, _, _, _ => none

/-- The `validTasks` of the import (script.js lines 244-250). -/
def validTasks (importedTasks : List Json) : List Json :=
  List.filter isValidTask importedTasks

/-- Model of the `reader.onload` handler of `importTasks` after `JSON.parse`
succeeded (script.js lines 242-260): an array is filtered and appended, any
other value leaves the tasks as they are. -/
def importTasks (tasks : List Task) (importedTasks : Json) : List Task :=
  match importedTasks with
  | .arr items => tasks ++ (validTasks items).filterMap readTask
  | _ => tasks

/-- The condition of the first alert of the import (script.js line 251). -/
def someSkipped (importedTasks : List Json) : Bool :=
  (validTasks importedTasks).length != importedTasks.length

mutual
/-- Model of `JSON.parse(JSON.stringify(v))` on a value: an infinite number
is printed as `null`, every other value is read back as it was. -/
def Json.reparse : Json → Json
  | .null => .null
  | .bool b => .bool b
  | .num (.finite n) => .num (.finite n)
  | .num .posInf => .null
  | .num .negInf => .null
  | .str s => .str s
  | .arr items => .arr (Json.reparseItems items)
  | .obj members => .obj (Json.reparseMembers members)
/-- The items of an array, each printed and read back. -/
def Json.reparseItems : List Json → List Json
  | [] => []
  | v :: vs => v.reparse :: Json.reparseItems vs
/-- The members of an object, each printed and read back. -/
def Json.reparseMembers : List (String × Json) → List (String × Json)
  | [] => []
  | (k, v) :: ms => (k, v.reparse) :: Json.reparseMembers ms
end

/-- What `JSON.stringify` makes of a task, as the tree `JSON.parse` reads
back: properties in creation order, a missing property left out, a `Date`
printed by `toISOString`. -/
def Task.toJson (toISOString : Int → Str) (t : Task) : Json :=
  .obj (
    [("id", (Json.num t.id).reparse), ("text", .str t.text),
     ("priority", .str t.priority.toStr)] ++
    (match t.dueDate with
     | none => []
     | some v => [("dueDate", v.reparse)]) ++
    [("completed", .bool t.completed)] ++
    (match t.completedAt with
     | .absent => []
     | .date ms => [("completedAt", .str (toISOString ms))]
     | .json v => [("completedAt", v.reparse)]))

/-- Model of `exportTasks` (script.js line 222): the content of the
downloaded file, as the tree `JSON.parse` reads back from it. -/
def exportTasks (toISOString : Int → Str) (tasks : List Task) : Json :=
  .arr (tasks.map (Task.toJson toISOString))

/-! ## Streak -/

/-- The test `tasks.some(...)` of `calculateStreak` for the day `i` days
before today (script.js line 153). `localDay` gives the local calendar day of
`new Date(t.completedAt)`, `none` for an invalid date; `today` is the local
calendar day of `new Date()`. -/
def completedOnDate (localDay : Timestamp → Option Int) (today : Int)
    (tasks : List Task) (i : Nat) : Bool :=
  tasks.any fun t => t.completed && localDay t.completedAt == some (today - (i : Int))

/-- The `for` loop of `calculateStreak` (script.js lines 150-156), with
`remaining` iterations left, loop variable `i` and accumulator `streak`. -/
def streakLoop (completedOn : Nat → Bool) : Nat → Nat → Nat → Nat
  | 0, _, streak => streak
  | remaining + 1, i, streak =>
    if completedOn i then streakLoop completedOn remaining (i + 1) (streak + 1)
    else if i > 0 then streak
    else streakLoop completedOn remaining (i + 1) streak

/-- Model of `calculateStreak` (script.js lines 147-158). -/
def calculateStreak (localDay : Timestamp → Option Int) (today : Int)
    (tasks : List Task) : Nat :=
  streakLoop (completedOnDate localDay today tasks) 365 0 0

/-! ## Sequences of operations -/

/-- One user operation on the task list, with the clock value it observes. -/
inductive Op
  | add (now : Int) (inputValue : Str) (priority : Priority) (dueDate : Str)
  | toggle (now : Int) (id : JSNumber)
  | edit (id : JSNumber) (newText : Str)
  | delete (id : JSNumber)
  | load (importedTasks : Json)
  | clear

/-- Effect of one operation on the array. A handler that throws leaves the
array as it was. -/
def step (tasks : List Task) : Op → List Task
  | .add now inputValue priority dueDate => addTask now inputValue priority dueDate tasks
  | .toggle now id =>
    match toggleComplete now id tasks with
    | .ok tasks1 => tasks1
    | .error _ => tasks
  | .edit id newText => editTask id newText tasks
  | .delete id => deleteTask id tasks
  | .load importedTasks => importTasks tasks importedTasks
  | .clear => clearAll tasks

/-- The array after a sequence of operations. -/
def run (ops : List Op) (tasks : List Task) : List Task :=
  ops.foldl step tasks

/-! ## Side conditions of the invariants -/

/-- The operation is an import in which every accepted record has a
`completedAt` value exactly when its `completed` is true; any other operation
passes. -/
def Op.loadsConsistent : Op → Bool
  | .load (.arr items) =>
    ((validTasks items).filterMap readTask).all fun t => t.completedAt.isPresent == t.completed
  | _ => true

/-- The operation brings no id that is already in the array: an add reads a
clock value that is not the id of a task, an import accepts records whose ids
differ from each other and from the ids of the array; any other operation
passes. -/
def Op.bringsFreshIds (tasks : List Task) : Op → Bool
  | .add now inputValue _ _ =>
    decide (trim inputValue = []) || !(tasks.any fun t => t.id == .finite now)
  | .load (.arr items) =>
    let added := (validTasks items).filterMap readTask
    decide (added.map (fun t => t.id)).Nodup &&
      added.all fun t => !(tasks.any fun u => u.id == t.id)
  | _ => true

/-- Every operation of the sequence, run from `tasks`, brings fresh ids to
the array it meets. -/
def freshIds : List Op → List Task → Bool
  | [], _ => true
  | op :: ops, tasks => op.bringsFreshIds tasks && freshIds ops (step tasks op)

/-! ## Finite numbers -/

/-- The number is not an infinity. -/
def JSNumber.isFinite : JSNumber → Bool
  | .finite _ => true
  | _ => false

mutual
/-- No number inside the value is an infinity. -/
def Json.allFinite : Json → Bool
  | .null => true
  | .bool _ => true
  | .num n => n.isFinite
  | .str _ => true
  | .arr items => Json.allFiniteItems items
  | .obj members => Json.allFiniteMembers members
/-- No number inside the items is an infinity. -/
def Json.allFiniteItems : List Json → Bool
  | [] => true
  | v :: vs => v.allFinite && Json.allFiniteItems vs
/-- No number inside the members is an infinity. -/
def Json.allFiniteMembers : List (String × Json) → Bool
  | [] => true
  | (_, v) :: ms => v.allFinite && Json.allFiniteMembers ms
end

/-- The `completedAt` property is itself an infinite number. -/
def Timestamp.isInfinite : Timestamp → Bool
  | .json (.num n) => !n.isFinite
  | _ => false

/-- The values of the task that the round trip compares are printed as they
are: the id is finite, no number inside the `dueDate` value is an infinity,
and the `completedAt` value is not itself an infinite number. -/
def Task.survivesExport (t : Task) : Bool :=
  t.id.isFinite &&
  (match t.dueDate with
   | none => true
   | some v => v.allFinite) &&
  !t.completedAt.isInfinite

/-- What `JSON.parse(JSON.stringify(task))` makes of the `completedAt`
property: a `Date` becomes the string printed by `toISOString`, a value from a
file is printed and read back. -/
def Timestamp.reload (toISOString : Int → Str) : Timestamp → Timestamp
  | .absent => .absent
  | .date ms => .json (.str (toISOString ms))
  | .json v => .json v.reparse

/-! ## Data for concrete evaluations -/

/-- A calendar for concrete evaluations: the UTC day number of a `Date`
object; other values are not interpreted as dates. -/
def utcDay : Timestamp → Option Int
  | .date ms => some (ms / 86400000)
  | _ => none

/-- A task completed at clock value `ms`, for concrete evaluations. -/
def completedTask (id ms : Int) : Task :=
  { id := .finite id, text := "a".toList, priority := .low, dueDate := some (.str []),
    completed := true, completedAt := .date ms }

/-! ## Properties named by the specification -/

/-- The text contains the search text when both are lower-cased: the lowered
text is some prefix, then the lowered search text, then some suffix. -/
def ContainsIgnoringCase (toLowerCase : Str → Str) (text search : Str) : Prop :=
  ∃ pre post, toLowerCase text = pre ++ toLowerCase search ++ post

/-- A candidate record is valid in the words of the specification: an object
with a numeric `id`, a string `text`, a `priority` among low, medium and
high, and a boolean `completed`. -/
def ValidRecord (c : Json) : Prop :=
  (∃ members, c = .obj members) ∧
  (∃ n, c.get "id" = some (.num n)) ∧
  (∃ s, c.get "text" = some (.str s)) ∧
  (∃ s, c.get "priority" = some (.str s) ∧
    (s = "low".toList ∨ s = "medium".toList ∨ s = "high".toList)) ∧
  (∃ b, c.get "completed" = some (.bool b))

/-- Task `u` is equivalent to task `t` in the sense of the round trip: same
id, text, priority, `completed` and due date, and `completedAt` present in
one exactly when it is present in the other. -/
def SameTask (t u : Task) : Prop :=
  u.id = t.id ∧ u.text = t.text ∧ u.priority = t.priority ∧
  u.completed = t.completed ∧ u.dueDate = t.dueDate ∧
  u.completedAt.isPresent = t.completedAt.isPresent

/-- The task has a `completedAt` value exactly when it is completed. -/
def CompletedAtConsistent (t : Task) : Prop :=
  t.completedAt.isPresent = true ↔ t.completed = true

/-- No two tasks of the array have the same id. -/
def UniqueIds (tasks : List Task) : Prop :=
  (tasks.map fun t => t.id).Nodup

/-- Some completed task of the array has its `completedAt` on local day `d`. -/
def DayHasCompletion (localDay : Timestamp → Option Int) (tasks : List Task) (d : Int) : Prop :=
  ∃ t ∈ tasks, t.completed = true ∧ localDay t.completedAt = some d

/-! ## Auxiliary lemmas -/

theorem find?_split (p : Task → Bool) (tasks : List Task) (t : Task)
    (h : tasks.find? p = some t) :
    ∃ pre post, tasks = pre ++ t :: post ∧ p t = true ∧ ∀ u ∈ pre, p u = false := by
  induction tasks with
  | nil => simp at h
  | cons a as ih =>
    by_cases hp : p a = true
    · rw [List.find?_cons_of_pos _ hp] at h
      cases h
      exact ⟨[], as, rfl, hp, by simp⟩
    · rw [List.find?_cons_of_neg _ hp] at h
      obtain ⟨pre, post, h1, h2, h3⟩ := ih h
      refine ⟨a :: pre, post, by rw [h1]; rfl, h2, ?_⟩
      intro u hu
      rcases List.mem_cons.mp hu with rfl | hu
      · simpa using hp
      · exact h3 u hu

theorem find?_append_first (p : Task → Bool) (pre post : List Task) (t : Task)
    (ht : p t = true) (hpre : ∀ u ∈ pre, p u = false) :
    (pre ++ t :: post).find? p = some t := by
  induction pre with
  | nil => simp [ht]
  | cons a as ih =>
    have ha : p a = false := hpre a (List.mem_cons_self _ _)
    have := ih (fun u hu => hpre u (List.mem_cons_of_mem _ hu))
    simp [List.find?_cons, ha, this]

theorem updateFirst_append (p : Task → Bool) (f : Task → Task) (pre post : List Task)
    (t : Task) (ht : p t = true) (hpre : ∀ u ∈ pre, p u = false) :
    updateFirst p f (pre ++ t :: post) = pre ++ f t :: post := by
  induction pre with
  | nil => simp [updateFirst, ht]
  | cons a as ih =>
    have ha : p a = false := hpre a (List.mem_cons_self _ _)
    have := ih (fun u hu => hpre u (List.mem_cons_of_mem _ hu))
    simp [updateFirst, ha, this]

/-! ## Adding a task -/

/-- C1 (defect of the replacement table): adding the text Buy <milk> stores it
with both angle brackets raw, not as the entity text Buy &lt;milk&gt; of the
claim. -/
theorem addTask_stores_raw_angle_brackets :
    ∃ t, addTask 1700000000000 "Buy <milk>".toList .high [] [] = [t] ∧
      t.text = "Buy <milk>".toList ∧
      t.text ≠ "Buy &lt;milk&gt;".toList ∧
      '<' ∈ t.text ∧ '>' ∈ t.text :=
  ⟨_, rfl, by decide, by decide, by decide, by decide⟩

/-- C2: when the input trims to empty `addTask` returns the array unchanged;
otherwise the result is one new task followed by the previous array, one
element longer, and the new task is not completed, has the clock value as id,
the escaped trimmed input as text, and the given priority and due date. -/
theorem addTask_spec (now : Int) (inputValue : Str) (priority : Priority) (dueDate : Str)
    (tasks : List Task) :
    (trim inputValue = [] → addTask now inputValue priority dueDate tasks = tasks) ∧
    (trim inputValue ≠ [] →
      ∃ t, addTask now inputValue priority dueDate tasks = t :: tasks ∧
        (addTask now inputValue priority dueDate tasks).length = tasks.length + 1 ∧
        (addTask now inputValue priority dueDate tasks).head? = some t ∧
        t.completed = false ∧ t.priority = priority ∧
        t.dueDate = some (.str dueDate) ∧
        t.id = .finite now ∧ t.text = escapeText (trim inputValue) ∧
        t.completedAt.isPresent = false) := by
  constructor
  · intro h
    simp [addTask, h]
  · intro h
    have hadd : addTask now inputValue priority dueDate tasks =
        { id := .finite now, text := escapeText (trim inputValue), priority := priority,
          dueDate := some (.str dueDate), completed := false,
          completedAt := .absent } :: tasks := by
      simp only [addTask, h, if_false]
    refine ⟨_, hadd, ?_⟩
    simp [hadd, Timestamp.isPresent]

/-! ## Toggling -/

/-- C3: for an id present in the array, toggling twice succeeds both times
and changes only the first task `t` with that id: the result is the original
array with `t` replaced by a task that has the same id, text, priority, due
date and `completed` value, and whose `completedAt` is `null` whenever that
value is false. -/
theorem toggleComplete_twice (now1 now2 : Int) (id : JSNumber) (tasks : List Task)
    (h : ∃ t ∈ tasks, t.id = id) :
    ∃ pre t post tasks1 t2,
      tasks = pre ++ t :: post ∧ t.id = id ∧ (∀ u ∈ pre, u.id ≠ id) ∧
      toggleComplete now1 id tasks = .ok tasks1 ∧
      toggleComplete now2 id tasks1 = .ok (pre ++ t2 :: post) ∧
      t2.id = t.id ∧ t2.text = t.text ∧ t2.priority = t.priority ∧
      t2.dueDate = t.dueDate ∧ t2.completed = t.completed ∧
      (t.completed = false → t2.completedAt = .json .null) := by
  obtain ⟨t0, ht0, hid0⟩ := h
  have hsome : (tasks.find? (fun t => t.id == id)).isSome = true := by
    rw [List.find?_isSome]
    exact ⟨t0, ht0, by simp [hid0]⟩
  obtain ⟨t, ht⟩ := Option.isSome_iff_exists.mp hsome
  obtain ⟨pre, post, hsplit, hpt, hpre⟩ := find?_split _ _ _ ht
  have hflip : ∀ now (u : Task), ((flipCompleted now u).id == id) = (u.id == id) := by
    intro now u; rfl
  have h1 : toggleComplete now1 id tasks = .ok (pre ++ flipCompleted now1 t :: post) := by
    simp only [toggleComplete, ht]
    rw [hsplit, updateFirst_append _ _ _ _ _ hpt hpre]
  have hpt1 : (fun u : Task => u.id == id) (flipCompleted now1 t) = true := by
    simpa [flipCompleted] using hpt
  have h2 : toggleComplete now2 id (pre ++ flipCompleted now1 t :: post) =
      .ok (pre ++ flipCompleted now2 (flipCompleted now1 t) :: post) := by
    simp only [toggleComplete, find?_append_first _ pre post _ hpt1 hpre]
    rw [updateFirst_append _ _ _ _ _ hpt1 hpre]
  refine ⟨pre, t, post, _, flipCompleted now2 (flipCompleted now1 t), hsplit, ?_, ?_, h1, h2,
    rfl, rfl, rfl, rfl, ?_, ?_⟩
  · simpa using hpt
  · intro u hu
    simpa using hpre u hu
  · simp [flipCompleted]
  · intro hc
    simp [flipCompleted, hc]

/-- C10 (missing guard): once a task is deleted, a toggle aimed at its id finds
no task and throws a `TypeError` instead of returning silently; this is the
click on a list item that is still displayed during the half second between
the deletion and the next rendering. -/
theorem toggleComplete_after_delete_throws (now : Int) (id : JSNumber) (tasks : List Task) :
    toggleComplete now id (deleteTask id tasks) = .error .typeError := by
  have h : (deleteTask id tasks).find? (fun t => t.id == id) = none := by
    rw [List.find?_eq_none]
    intro u hu
    simp only [deleteTask, List.mem_filter] at hu
    simpa using hu.2
  simp only [toggleComplete, h]

/-! ## Lemmas on strings and on the import validation -/

theorem startsWith_iff (hay needle : Str) :
    startsWith hay needle = true ↔ ∃ post, hay = needle ++ post := by
  induction needle generalizing hay with
  | nil => simp [startsWith]
  | cons n ns ih =>
    cases hay with
    | nil => simp [startsWith]
    | cons h hs =>
      simp only [startsWith, Bool.and_eq_true, beq_iff_eq, ih, List.cons_append, List.cons.injEq]
      constructor
      · rintro ⟨rfl, post, rfl⟩
        exact ⟨post, rfl, rfl⟩
      · rintro ⟨post, rfl, rfl⟩
        exact ⟨rfl, post, rfl⟩

theorem includes_iff (hay needle : Str) :
    includes hay needle = true ↔ ∃ pre post, hay = pre ++ needle ++ post := by
  induction hay with
  | nil =>
    simp only [includes, List.isEmpty_iff]
    constructor
    · rintro rfl
      exact ⟨[], [], rfl⟩
    · rintro ⟨pre, post, h⟩
      have := congrArg List.length h
      simp at this
      exact List.length_eq_zero.mp (by omega)
  | cons h hs ih =>
    simp only [includes, Bool.or_eq_true, startsWith_iff, ih]
    constructor
    · rintro (⟨post, hp⟩ | ⟨pre, post, hp⟩)
      · exact ⟨[], post, by simpa using hp⟩
      · exact ⟨h :: pre, post, by simp [hp]⟩
    · rintro ⟨pre, post, hp⟩
      cases pre with
      | nil => exact Or.inl ⟨post, by simpa using hp⟩
      | cons a as =>
        simp only [List.cons_append, List.cons.injEq] at hp
        exact Or.inr ⟨as, post, by simpa using hp.2⟩

theorem isNumber_iff (v : Option Json) : isNumber v = true ↔ ∃ n, v = some (.num n) := by
  cases v with
  | none => simp [isNumber]
  | some j => cases j <;> simp [isNumber]

theorem isString_iff (v : Option Json) : isString v = true ↔ ∃ s, v = some (.str s) := by
  cases v with
  | none => simp [isString]
  | some j => cases j <;> simp [isString]

theorem isBoolean_iff (v : Option Json) : isBoolean v = true ↔ ∃ b, v = some (.bool b) := by
  cases v with
  | none => simp [isBoolean]
  | some j => cases j <;> simp [isBoolean]

theorem isListedPriority_iff (v : Option Json) :
    isListedPriority v = true ↔
      ∃ s, v = some (.str s) ∧
        (s = "low".toList ∨ s = "medium".toList ∨ s = "high".toList) := by
  cases v with
  | none => simp [isListedPriority]
  | some j => cases j <;> simp [isListedPriority, priorityNames]

theorem isValidTask_iff (c : Json) : isValidTask c = true ↔ ValidRecord c := by
  simp only [isValidTask, Bool.and_eq_true, isNumber_iff, isString_iff, isBoolean_iff,
    isListedPriority_iff, ValidRecord]
  constructor
  · rintro ⟨⟨⟨⟨h1, h2⟩, h3⟩, h4⟩, h5⟩
    refine ⟨?_, h2, h3, h4, h5⟩
    cases c with
    | obj members => exact ⟨members, rfl⟩
    | arr items =>
      obtain ⟨n, hn⟩ := h2
      simp [Json.get] at hn
    | _ => simp [Json.isObject] at h1
  · rintro ⟨⟨members, rfl⟩, h2, h3, h4, h5⟩
    exact ⟨⟨⟨⟨rfl, h2⟩, h3⟩, h4⟩, h5⟩

theorem readTask_of_valid (c : Json) (h : isValidTask c = true) :
    ∃ t, readTask c = some t := by
  obtain ⟨_, ⟨n, hn⟩, ⟨s, hs⟩, ⟨p, hp, hpl⟩, ⟨b, hb⟩⟩ := (isValidTask_iff c).mp h
  rcases hpl with rfl | rfl | rfl <;>
    simp +decide [readTask, hn, hs, hp, hb, Priority.ofStr?]

theorem filterMap_readTask (cs : List Json) (h : ∀ c ∈ cs, isValidTask c = true) :
    List.Forall₂ (fun c t => readTask c = some t) cs (cs.filterMap readTask) := by
  induction cs with
  | nil => simp
  | cons c cs ih =>
    obtain ⟨t, ht⟩ := readTask_of_valid c (h c (List.mem_cons_self _ _))
    rw [List.filterMap_cons_some ht]
    exact List.Forall₂.cons ht (ih (fun d hd => h d (List.mem_cons_of_mem _ hd)))

/-! ## Import -/

/-- C4: importing a parsed array keeps the existing tasks in order and appends,
in input order, the tasks read from exactly the candidates that pass the
validation; a candidate passes iff it is an object with numeric `id`, string
`text`, listed `priority` and boolean `completed`; appended and rejected
candidates add up to the input; in the two-record example one record is
appended and one rejected. -/
theorem importTasks_spec :
    (∀ (tasks : List Task) (candidates : List Json),
      ∃ added, importTasks tasks (.arr candidates) = tasks ++ added ∧
        List.Forall₂ (fun c t => readTask c = some t) (validTasks candidates) added ∧
        validTasks candidates = candidates.filter isValidTask ∧
        (∀ c, isValidTask c = true ↔ ValidRecord c) ∧
        added.length + candidates.countP (fun c => !isValidTask c) = candidates.length ∧
        (someSkipped candidates = true ↔ 0 < candidates.countP (fun c => !isValidTask c))) ∧
    (∀ tasks : List Task, importTasks tasks (.arr
        [.obj [("id", .num (.finite 1)), ("text", .str "x".toList),
               ("priority", .str "low".toList), ("completed", .bool false)],
         .obj [("id", .num (.finite 2)), ("text", .str "y".toList),
               ("priority", .str "bogus".toList), ("completed", .bool false)]]) =
        tasks ++ [{ id := .finite 1, text := "x".toList, priority := .low, dueDate := none,
                    completed := false, completedAt := .absent }]) := by
  constructor
  · intro tasks candidates
    have hvalid : ∀ c ∈ validTasks candidates, isValidTask c = true := by
      intro c hc
      exact (List.mem_filter.mp hc).2
    have hF := filterMap_readTask (validTasks candidates) hvalid
    have hlen : ((validTasks candidates).filterMap readTask).length =
        candidates.countP isValidTask := by
      rw [← hF.length_eq, validTasks, List.countP_eq_length_filter]
    have hsum : candidates.countP isValidTask +
        candidates.countP (fun c => !isValidTask c) = candidates.length := by
      have := List.length_eq_countP_add_countP isValidTask candidates
      simp only [Bool.not_eq_true] at this
      rw [this]
      congr 2
      funext c
      cases isValidTask c <;> rfl
    refine ⟨(validTasks candidates).filterMap readTask, rfl, hF, rfl, isValidTask_iff, ?_, ?_⟩
    · rw [hlen, hsum]
    · have h1 : (validTasks candidates).length = candidates.countP isValidTask := by
        rw [validTasks, List.countP_eq_length_filter]
      simp only [someSkipped, bne_iff_ne, ne_eq, h1]
      omega
  · intro tasks
    rfl

/-! ## The rendered tasks -/

/-- C5: the rendered tasks are the tasks, in array order, that pass a test
`p` true exactly of the tasks whose text contains the search text when both
are lower-cased, combined with the mode: every such task for all, those
with `completed` false for pending, those with `completed` true for
completed. A task stored from the text Buy <milk> is rendered for the search
text milk and not for eggs. -/
theorem filteredTasks_spec :
    (∀ (toLowerCase : Str → Str) (searchValue : Str) (tasks : List Task),
      ∃ p : Task → Bool,
        (∀ t, p t = true ↔ ContainsIgnoringCase toLowerCase t.text searchValue) ∧
        filteredTasks toLowerCase searchValue "all" tasks = tasks.filter p ∧
        filteredTasks toLowerCase searchValue "pending" tasks =
          tasks.filter (fun t => p t && t.completed == false) ∧
        filteredTasks toLowerCase searchValue "completed" tasks =
          tasks.filter (fun t => p t && t.completed == true) ∧
        ∀ filterValue,
          (filteredTasks toLowerCase searchValue filterValue tasks).Sublist tasks) ∧
    (∀ (now : Int) (priority : Priority) (dueDate : Str),
      filteredTasks asciiLower "milk".toList "all"
          (addTask now "Buy <milk>".toList priority dueDate []) =
        addTask now "Buy <milk>".toList priority dueDate [] ∧
      addTask now "Buy <milk>".toList priority dueDate [] ≠ [] ∧
      filteredTasks asciiLower "eggs".toList "all"
          (addTask now "Buy <milk>".toList priority dueDate []) = []) := by
  constructor
  · intro toLowerCase searchValue tasks
    refine ⟨fun t => includes (toLowerCase t.text) (toLowerCase searchValue), ?_, ?_, ?_, ?_, ?_⟩
    · intro t
      exact includes_iff _ _
    · simp +decide [filteredTasks]
    · simp +decide [filteredTasks]
    · simp +decide [filteredTasks]
    · intro filterValue
      exact List.filter_sublist _
  · intro now priority dueDate
    have hadd : addTask now "Buy <milk>".toList priority dueDate [] =
        [{ id := .finite now, text := "Buy <milk>".toList, priority := priority,
           dueDate := some (.str dueDate), completed := false, completedAt := .absent }] := by
      rfl
    rw [hadd]
    refine ⟨?_, by simp, ?_⟩
    · have h : includes (asciiLower "Buy <milk>".toList) (asciiLower "milk".toList) = true := by
        decide
      simp +decide [filteredTasks, h]
    · have h : includes (asciiLower "Buy <milk>".toList) (asciiLower "eggs".toList) = false := by
        decide
      simp +decide [filteredTasks, h]

/-! ## Streak -/

theorem completedOnDate_iff (localDay : Timestamp → Option Int) (today : Int)
    (tasks : List Task) (i : Nat) :
    completedOnDate localDay today tasks i = true ↔
      DayHasCompletion localDay tasks (today - (i : Int)) := by
  simp [completedOnDate, DayHasCompletion]

theorem streakLoop_succ (completedOn : Nat → Bool) (remaining i streak : Nat) :
    streakLoop completedOn (remaining + 1) i streak =
      if completedOn i then streakLoop completedOn remaining (i + 1) (streak + 1)
      else if i > 0 then streak
      else streakLoop completedOn remaining (i + 1) streak := by
  simp only [streakLoop]

theorem calculateStreak_unfold (localDay : Timestamp → Option Int) (today : Int)
    (tasks : List Task) :
    calculateStreak localDay today tasks =
      if completedOnDate localDay today tasks 0 = true then
        streakLoop (completedOnDate localDay today tasks) 364 1 1
      else streakLoop (completedOnDate localDay today tasks) 364 1 0 := by
  unfold calculateStreak
  rw [show (365 : Nat) = 364 + 1 from rfl, streakLoop_succ]
  simp

/-- From day `i ≥ 1` on, the loop adds to the accumulator the length `k` of
the run of days with a completion that starts at day `i`, cut at the number
of iterations left. -/
theorem streakLoop_run (completedOn : Nat → Bool) (remaining i streak : Nat) (hi : 0 < i) :
    ∃ k, k ≤ remaining ∧
      streakLoop completedOn remaining i streak = streak + k ∧
      (∀ j, j < k → completedOn (i + j) = true) ∧
      (k < remaining → completedOn (i + k) = false) := by
  induction remaining generalizing i streak with
  | zero => exact ⟨0, le_refl _, by simp [streakLoop], by simp, by simp⟩
  | succ r ih =>
    by_cases hc : completedOn i = true
    · obtain ⟨k, hk, hres, hall, hstop⟩ := ih (i + 1) (streak + 1) (Nat.succ_pos _)
      refine ⟨k + 1, by omega, ?_, ?_, ?_⟩
      · rw [streakLoop_succ]
        simp only [hc, if_true, hres]
        omega
      · intro j hj
        cases j with
        | zero => simpa using hc
        | succ j =>
          have := hall j (by omega)
          have e : i + (j + 1) = i + 1 + j := by omega
          rw [e]
          exact this
      · intro hlt
        have := hstop (by omega)
        have e : i + (k + 1) = i + 1 + k := by omega
        rw [e]
        exact this
    · refine ⟨0, by omega, ?_, by simp, ?_⟩
      · rw [streakLoop_succ]
        simp [hc, hi]
      · intro _
        simpa using hc

/-- C6: the streak is one for today when today has a completion, plus the
length `k` of the unbroken run of days with a completion that starts
yesterday: every day from 1 to `k` days back has one, and the day `k + 1`
back has none unless the 365-day window ends first. The result is at most
365, and it is 2 when today and yesterday have a completion and the day
before has none. -/
theorem calculateStreak_spec (localDay : Timestamp → Option Int) (today : Int)
    (tasks : List Task) :
    (∃ k, k ≤ 364 ∧
      calculateStreak localDay today tasks =
        (if completedOnDate localDay today tasks 0 = true then 1 else 0) + k ∧
      (completedOnDate localDay today tasks 0 = true ↔
        DayHasCompletion localDay tasks today) ∧
      (∀ i : Nat, 1 ≤ i → i ≤ k → DayHasCompletion localDay tasks (today - (i : Int))) ∧
      (k < 364 → ¬ DayHasCompletion localDay tasks (today - ((k + 1 : Nat) : Int)))) ∧
    calculateStreak localDay today tasks ≤ 365 ∧
    (DayHasCompletion localDay tasks today →
      DayHasCompletion localDay tasks (today - 1) →
      ¬ DayHasCompletion localDay tasks (today - 2) →
      calculateStreak localDay today tasks = 2) := by
  have h0 : completedOnDate localDay today tasks 0 = true ↔
      DayHasCompletion localDay tasks today := by
    simpa using completedOnDate_iff localDay today tasks 0
  have main : ∃ k, k ≤ 364 ∧
      calculateStreak localDay today tasks =
        (if completedOnDate localDay today tasks 0 = true then 1 else 0) + k ∧
      (∀ j, j < k → completedOnDate localDay today tasks (1 + j) = true) ∧
      (k < 364 → completedOnDate localDay today tasks (1 + k) = false) := by
    by_cases hc : completedOnDate localDay today tasks 0 = true
    · obtain ⟨k, hk, hres, hall, hstop⟩ :=
        streakLoop_run (completedOnDate localDay today tasks) 364 1 1 Nat.one_pos
      exact ⟨k, hk, by rw [calculateStreak_unfold]; simp [hc, hres], hall, hstop⟩
    · obtain ⟨k, hk, hres, hall, hstop⟩ :=
        streakLoop_run (completedOnDate localDay today tasks) 364 1 0 Nat.one_pos
      exact ⟨k, hk, by rw [calculateStreak_unfold]; simp [hc, hres], hall, hstop⟩
  obtain ⟨k, hk, hres, hall, hstop⟩ := main
  refine ⟨⟨k, hk, hres, h0, ?_, ?_⟩, ?_, ?_⟩
  · intro i hi1 hik
    have := hall (i - 1) (by omega)
    have e : 1 + (i - 1) = i := by omega
    rw [e] at this
    exact (completedOnDate_iff localDay today tasks i).mp this
  · intro hlt hday
    have := hstop hlt
    have e : 1 + k = k + 1 := by omega
    rw [e] at this
    have := (completedOnDate_iff localDay today tasks (k + 1)).mpr hday
    simp_all
  · rw [hres]
    split <;> omega
  · intro d0 d1 d2
    have c0 := h0.mpr d0
    have c1 : completedOnDate localDay today tasks 1 = true :=
      (completedOnDate_iff localDay today tasks 1).mpr (by simpa using d1)
    have c2 : completedOnDate localDay today tasks 2 = false := by
      have := (completedOnDate_iff localDay today tasks 2).not.mpr (by simpa using d2)
      simpa using this
    have hk1 : k = 1 := by
      by_contra hne
      rcases Nat.lt_or_gt_of_ne hne with hlt | hgt
      · have hk0 : k = 0 := by omega
        have := hstop (by omega)
        rw [hk0] at this
        simp [c1] at this
      · have := hall 1 (by omega)
        simp [c2] at this
    rw [hres, hk1]
    simp [c0]

/-! ## Round trip through export and import -/

mutual
theorem Json.reparse_of_allFinite : (v : Json) → v.allFinite = true → v.reparse = v
  | .null, _ => rfl
  | .bool _, _ => rfl
  | .num (.finite _), _ => rfl
  | .num .posInf, h => by simp [Json.allFinite, JSNumber.isFinite] at h
  | .num .negInf, h => by simp [Json.allFinite, JSNumber.isFinite] at h
  | .str _, _ => rfl
  | .arr items, h => by
    have := Json.reparseItems_of_allFinite items (by simpa [Json.allFinite] using h)
    simp [Json.reparse, this]
  | .obj members, h => by
    have := Json.reparseMembers_of_allFinite members (by simpa [Json.allFinite] using h)
    simp [Json.reparse, this]
theorem Json.reparseItems_of_allFinite :
    (vs : List Json) → Json.allFiniteItems vs = true → Json.reparseItems vs = vs
  | [], _ => rfl
  | v :: vs, h => by
    simp only [Json.allFiniteItems, Bool.and_eq_true] at h
    simp [Json.reparseItems, Json.reparse_of_allFinite v h.1,
      Json.reparseItems_of_allFinite vs h.2]
theorem Json.reparseMembers_of_allFinite :
    (ms : List (String × Json)) → Json.allFiniteMembers ms = true →
      Json.reparseMembers ms = ms
  | [], _ => rfl
  | (k, v) :: ms, h => by
    simp only [Json.allFiniteMembers, Bool.and_eq_true] at h
    simp [Json.reparseMembers, Json.reparse_of_allFinite v h.1,
      Json.reparseMembers_of_allFinite ms h.2]
end

theorem Priority.ofStr?_toStr (p : Priority) : Priority.ofStr? p.toStr = some p := by
  cases p <;> decide

mutual
theorem Json.allFinite_of_reparse : (v : Json) → v.reparse = v → v.allFinite = true
  | .null, _ => rfl
  | .bool _, _ => rfl
  | .num (.finite _), _ => rfl
  | .num .posInf, h => by simp [Json.reparse] at h
  | .num .negInf, h => by simp [Json.reparse] at h
  | .str _, _ => rfl
  | .arr items, h => by
    have h1 : Json.reparseItems items = items := by simpa [Json.reparse] using h
    simpa [Json.allFinite] using Json.allFiniteItems_of_reparse items h1
  | .obj members, h => by
    have h1 : Json.reparseMembers members = members := by simpa [Json.reparse] using h
    simpa [Json.allFinite] using Json.allFiniteMembers_of_reparse members h1
theorem Json.allFiniteItems_of_reparse :
    (vs : List Json) → Json.reparseItems vs = vs → Json.allFiniteItems vs = true
  | [], _ => rfl
  | v :: vs, h => by
    simp only [Json.reparseItems, List.cons.injEq] at h
    simp [Json.allFiniteItems, Json.allFinite_of_reparse v h.1,
      Json.allFiniteItems_of_reparse vs h.2]
theorem Json.allFiniteMembers_of_reparse :
    (ms : List (String × Json)) → Json.reparseMembers ms = ms →
      Json.allFiniteMembers ms = true
  | [], _ => rfl
  | (k, v) :: ms, h => by
    simp only [Json.reparseMembers, List.cons.injEq, Prod.mk.injEq, true_and] at h
    simp [Json.allFiniteMembers, Json.allFinite_of_reparse v h.1,
      Json.allFiniteMembers_of_reparse ms h.2]
end

theorem dueDate_reparse_iff (d : Option Json) :
    d.map Json.reparse = d ↔
      (match d with
       | none => true
       | some v => v.allFinite) = true := by
  cases d with
  | none => simp
  | some v =>
    simp only [Option.map_some', Option.some.injEq]
    exact ⟨Json.allFinite_of_reparse v, Json.reparse_of_allFinite v⟩

theorem isPresent_reload_iff (toISOString : Int → Str) (c : Timestamp) :
    (c.reload toISOString).isPresent = c.isPresent ↔ c.isInfinite = false := by
  cases c with
  | absent => simp [Timestamp.reload, Timestamp.isInfinite]
  | date ms => simp [Timestamp.reload, Timestamp.isInfinite, Timestamp.isPresent]
  | json v =>
    cases v with
    | num n =>
      cases n <;>
        simp [Timestamp.reload, Timestamp.isInfinite, Timestamp.isPresent, Json.reparse,
          JSNumber.isFinite]
    | _ => simp [Timestamp.reload, Timestamp.isInfinite, Timestamp.isPresent, Json.reparse]

theorem Task.toJson_get (toISOString : Int → Str) (t : Task) :
    (t.toJson toISOString).isObject = true ∧
    (t.toJson toISOString).get "id" = some ((Json.num t.id).reparse) ∧
    (t.toJson toISOString).get "text" = some (.str t.text) ∧
    (t.toJson toISOString).get "priority" = some (.str t.priority.toStr) ∧
    (t.toJson toISOString).get "completed" = some (.bool t.completed) ∧
    (t.toJson toISOString).get "dueDate" = t.dueDate.map Json.reparse ∧
    (match (t.toJson toISOString).get "completedAt" with
     | none => Timestamp.absent
     | some v => .json v) = t.completedAt.reload toISOString := by
  obtain ⟨id, text, priority, dueDate, completed, completedAt⟩ := t
  cases dueDate <;> cases completedAt <;>
    simp +decide [Task.toJson, Json.get, Json.isObject, Timestamp.reload]

theorem readTask_toJson (toISOString : Int → Str) (t : Task) (hid : t.id.isFinite = true) :
    isValidTask (t.toJson toISOString) = true ∧
    readTask (t.toJson toISOString) =
      some { t with dueDate := t.dueDate.map Json.reparse,
                    completedAt := t.completedAt.reload toISOString } := by
  obtain ⟨hobj, h1, h2, h3, h4, h5, h6⟩ := Task.toJson_get toISOString t
  have hid2 : (Json.num t.id).reparse = .num t.id := by
    cases hn : t.id with
    | finite n => rfl
    | posInf => simp [hn, JSNumber.isFinite] at hid
    | negInf => simp [hn, JSNumber.isFinite] at hid
  rw [hid2] at h1
  have hp := Priority.ofStr?_toStr t.priority
  have hpl : isListedPriority (some (.str t.priority.toStr)) = true := by
    cases t.priority <;> decide
  constructor
  · simp [isValidTask, hobj, h1, h2, h3, h4, isNumber, isString, isBoolean, hpl]
  · simp only [readTask, h1, h2, h3, h4, h5, h6, hp, Option.map_some']

theorem isValidTask_toJson_of_infinite (toISOString : Int → Str) (t : Task)
    (hid : t.id.isFinite = false) : isValidTask (t.toJson toISOString) = false := by
  obtain ⟨_, h1, _⟩ := Task.toJson_get toISOString t
  have hid2 : (Json.num t.id).reparse = .null := by
    cases hn : t.id with
    | finite n => simp [hn, JSNumber.isFinite] at hid
    | posInf => rfl
    | negInf => rfl
  simp [isValidTask, h1, hid2, isNumber]

theorem sameTask_reload_iff (toISOString : Int → Str) (t : Task)
    (hid : t.id.isFinite = true) :
    SameTask t { t with dueDate := t.dueDate.map Json.reparse,
                        completedAt := t.completedAt.reload toISOString } ↔
      t.survivesExport = true := by
  simp only [SameTask, true_and, dueDate_reparse_iff, isPresent_reload_iff, Task.survivesExport,
    hid, Bool.and_eq_true, Bool.true_and, Bool.not_eq_true']

/-- The tasks read back from the export of `tasks` by an import into the
empty array. -/
theorem importTasks_exportTasks (toISOString : Int → Str) (tasks : List Task) :
    (validTasks (tasks.map (Task.toJson toISOString))).filterMap readTask =
      importTasks [] (exportTasks toISOString tasks) := by
  simp [importTasks, exportTasks]

theorem reimported_cons_of_finite (toISOString : Int → Str) (t : Task) (ts : List Task)
    (hid : t.id.isFinite = true) :
    (validTasks ((t :: ts).map (Task.toJson toISOString))).filterMap readTask =
      { t with dueDate := t.dueDate.map Json.reparse,
               completedAt := t.completedAt.reload toISOString } ::
        (validTasks (ts.map (Task.toJson toISOString))).filterMap readTask := by
  obtain ⟨hv, hr⟩ := readTask_toJson toISOString t hid
  rw [List.map_cons, validTasks, List.filter_cons_of_pos hv, List.filterMap_cons_some hr]
  rfl

theorem reimported_cons_of_infinite (toISOString : Int → Str) (t : Task) (ts : List Task)
    (hid : t.id.isFinite = false) :
    (validTasks ((t :: ts).map (Task.toJson toISOString))).filterMap readTask =
      (validTasks (ts.map (Task.toJson toISOString))).filterMap readTask := by
  have hv := isValidTask_toJson_of_infinite toISOString t hid
  rw [List.map_cons, validTasks, List.filter_cons_of_neg (by simp [hv])]
  rfl

theorem reimported_length_le (toISOString : Int → Str) (tasks : List Task) :
    ((validTasks (tasks.map (Task.toJson toISOString))).filterMap readTask).length ≤
      tasks.length := by
  calc ((validTasks (tasks.map (Task.toJson toISOString))).filterMap readTask).length
      ≤ (validTasks (tasks.map (Task.toJson toISOString))).length :=
        List.length_filterMap_le _ _
    _ ≤ (tasks.map (Task.toJson toISOString)).length := List.length_filter_le _ _
    _ = tasks.length := List.length_map _ _

theorem reimported_sameTask (toISOString : Int → Str) (tasks : List Task)
    (h : ∀ t ∈ tasks, t.survivesExport = true) :
    List.Forall₂ SameTask tasks
      ((validTasks (tasks.map (Task.toJson toISOString))).filterMap readTask) := by
  induction tasks with
  | nil => simp [validTasks]
  | cons t ts ih =>
    have ht := h t (List.mem_cons_self _ _)
    have hid : t.id.isFinite = true := by
      simp only [Task.survivesExport, Bool.and_eq_true] at ht
      exact ht.1.1
    rw [reimported_cons_of_finite toISOString t ts hid]
    exact List.Forall₂.cons ((sameTask_reload_iff toISOString t hid).mpr ht)
      (ih (fun v hv => h v (List.mem_cons_of_mem _ hv)))

/-- The condition of the round trip is necessary: when the tasks read back
from the export are equivalent to the originals, one by one, every original
has a finite id, a `dueDate` without infinity and a `completedAt` that is not
an infinite number. -/
theorem survivesExport_of_roundtrip (toISOString : Int → Str) (tasks : List Task)
    (h : List.Forall₂ SameTask tasks (importTasks [] (exportTasks toISOString tasks))) :
    ∀ t ∈ tasks, t.survivesExport = true := by
  rw [← importTasks_exportTasks] at h
  induction tasks with
  | nil => simp
  | cons t ts ih =>
    cases hid : t.id.isFinite with
    | false =>
      rw [reimported_cons_of_infinite toISOString t ts hid] at h
      have h1 := h.length_eq
      have h2 := reimported_length_le toISOString ts
      simp only [List.length_cons] at h1
      omega
    | true =>
      rw [reimported_cons_of_finite toISOString t ts hid] at h
      cases h with
      | cons hsame hrest =>
        intro u hu
        rcases List.mem_cons.mp hu with rfl | hu
        · exact (sameTask_reload_iff toISOString u hid).mp hsame
        · exact ih hrest u hu

/-- C7, as amended: for every array in which no task id is infinite, no
number inside a `dueDate` value is an infinity and no `completedAt` value is
itself an infinite number, the export of the array, read back into the empty
array, gives an array of the same length and order whose tasks have the same
id, text, priority, `completed` and due date as the originals and a
`completedAt` value exactly when the original had one. -/
theorem export_import_roundtrip (toISOString : Int → Str) (tasks : List Task)
    (h : ∀ t ∈ tasks, t.survivesExport = true) :
    List.Forall₂ SameTask tasks (importTasks [] (exportTasks toISOString tasks)) ∧
    (importTasks [] (exportTasks toISOString tasks)).length = tasks.length := by
  have key : List.Forall₂ SameTask tasks (importTasks [] (exportTasks toISOString tasks)) := by
    rw [← importTasks_exportTasks]
    exact reimported_sameTask toISOString tasks h
  exact ⟨key, key.length_eq.symm⟩

/-- C7, counterexample: a record whose id is written 1e999 is accepted by
the import with the id infinity; the export prints that id as `null`, and
reading that export back into the empty array rejects the record, so a task
is dropped. -/
theorem export_import_drops_infinite_id :
    ¬ ∀ (toISOString : Int → Str) (ops : List Op),
        List.Forall₂ SameTask (run ops [])
          (importTasks [] (exportTasks toISOString (run ops []))) := by
  intro h
  have h1 := h (fun _ => []) [.load (.arr
    [.obj [("id", .num .posInf), ("text", .str "x".toList),
           ("priority", .str "low".toList), ("completed", .bool false)]])]
  have h2 := h1.length_eq
  revert h2
  decide

/-- C7, instance of the amended round trip: a task added and completed at
clock value 86400000, next to a record taken from a file whose `completedAt`
is an array holding the number written 1e999; both come back from the
export. -/
theorem export_import_roundtrip_example :
    (∀ t ∈ run [.add 5 "a".toList .low [], .toggle 86400000 (.finite 5),
        .load (.arr [.obj [("id", .num (.finite 1)), ("text", .str "x".toList),
          ("priority", .str "low".toList), ("completed", .bool true),
          ("completedAt", .arr [.num .posInf])]])] [],
        t.survivesExport = true) ∧
    List.Forall₂ SameTask
      (run [.add 5 "a".toList .low [], .toggle 86400000 (.finite 5),
        .load (.arr [.obj [("id", .num (.finite 1)), ("text", .str "x".toList),
          ("priority", .str "low".toList), ("completed", .bool true),
          ("completedAt", .arr [.num .posInf])]])] [])
      (importTasks [] (exportTasks (fun _ => "1970-01-02T00:00:00.000Z".toList)
        (run [.add 5 "a".toList .low [], .toggle 86400000 (.finite 5),
          .load (.arr [.obj [("id", .num (.finite 1)), ("text", .str "x".toList),
            ("priority", .str "low".toList), ("completed", .bool true),
            ("completedAt", .arr [.num .posInf])]])] []))) :=
  ⟨by decide,
   (export_import_roundtrip (fun _ => "1970-01-02T00:00:00.000Z".toList) _ (by decide)).1⟩

/-! ## Invariants along sequences of operations -/

theorem mem_updateFirst (p : Task → Bool) (f : Task → Task) (tasks : List Task) (t : Task)
    (h : t ∈ updateFirst p f tasks) : t ∈ tasks ∨ ∃ u ∈ tasks, t = f u := by
  induction tasks with
  | nil => simp [updateFirst] at h
  | cons a as ih =>
    by_cases hp : p a = true
    · rw [updateFirst, if_pos hp, List.mem_cons] at h
      rcases h with rfl | h
      · exact Or.inr ⟨a, List.mem_cons_self _ _, rfl⟩
      · exact Or.inl (List.mem_cons_of_mem _ h)
    · rw [updateFirst, if_neg hp, List.mem_cons] at h
      rcases h with rfl | h
      · exact Or.inl (List.mem_cons_self _ _)
      · rcases ih h with h1 | ⟨u, hu, rfl⟩
        · exact Or.inl (List.mem_cons_of_mem _ h1)
        · exact Or.inr ⟨u, List.mem_cons_of_mem _ hu, rfl⟩

theorem map_id_updateFirst (p : Task → Bool) (f : Task → Task) (tasks : List Task)
    (hf : ∀ t, (f t).id = t.id) :
    (updateFirst p f tasks).map (fun t => t.id) = tasks.map (fun t => t.id) := by
  induction tasks with
  | nil => rfl
  | cons a as ih =>
    by_cases hp : p a = true
    · simp [updateFirst, hp, hf]
    · simp [updateFirst, hp, ih]

theorem flipCompleted_consistent (now : Int) (t : Task) :
    CompletedAtConsistent (flipCompleted now t) := by
  cases hc : t.completed <;> simp [CompletedAtConsistent, flipCompleted, hc, Timestamp.isPresent]

theorem step_consistent (tasks : List Task) (op : Op)
    (hinv : ∀ t ∈ tasks, CompletedAtConsistent t) (hop : op.loadsConsistent = true) :
    ∀ t ∈ step tasks op, CompletedAtConsistent t := by
  intro t ht
  cases op with
  | add now inputValue priority dueDate =>
    simp only [step, addTask] at ht
    split at ht
    · exact hinv t ht
    · rcases List.mem_cons.mp ht with rfl | ht
      · simp [CompletedAtConsistent, Timestamp.isPresent]
      · exact hinv t ht
  | toggle now id =>
    simp only [step, toggleComplete] at ht
    split at ht
    · rename_i tasks1 heq
      split at heq
      · cases heq
      · cases heq
        rcases mem_updateFirst _ _ _ _ ht with h | ⟨u, _, rfl⟩
        · exact hinv t h
        · exact flipCompleted_consistent now u
    · exact hinv t ht
  | edit id newText =>
    simp only [step, editTask] at ht
    split at ht
    · exact hinv t ht
    · split at ht
      · rcases mem_updateFirst _ _ _ _ ht with h | ⟨u, hu, rfl⟩
        · exact hinv t h
        · exact hinv u hu
      · exact hinv t ht
  | delete id =>
    simp only [step, deleteTask] at ht
    exact hinv t (List.mem_filter.mp ht).1
  | load importedTasks =>
    cases importedTasks with
    | arr items =>
      simp only [step, importTasks, List.mem_append] at ht
      rcases ht with ht | ht
      · exact hinv t ht
      · simp only [Op.loadsConsistent, List.all_eq_true] at hop
        have := hop t ht
        simp only [CompletedAtConsistent]
        rw [beq_iff_eq] at this
        rw [this]
    | _ => exact hinv t ht
  | clear => simp [step, clearAll] at ht

theorem run_consistent (ops : List Op) (tasks : List Task)
    (hinv : ∀ t ∈ tasks, CompletedAtConsistent t)
    (hops : ∀ op ∈ ops, op.loadsConsistent = true) :
    ∀ t ∈ run ops tasks, CompletedAtConsistent t := by
  induction ops generalizing tasks with
  | nil => simpa [run] using hinv
  | cons op ops ih =>
    have h1 := step_consistent tasks op hinv (hops op (List.mem_cons_self _ _))
    have := ih (step tasks op) h1 (fun o ho => hops o (List.mem_cons_of_mem _ ho))
    simpa [run] using this

/-- C8, as amended: in every array reached from the empty array by add,
toggle, edit, delete, import and clear-all operations whose imports accept
only records with a `completedAt` value exactly when `completed` is true,
each task has a `completedAt` value if and only if it is completed. -/
theorem completedAt_iff_completed (ops : List Op)
    (hops : ∀ op ∈ ops, op.loadsConsistent = true) :
    ∀ t ∈ run ops [], CompletedAtConsistent t :=
  run_consistent ops [] (by simp) hops

/-- C8, counterexample: importing one record with `completed` true and no
`completedAt` property puts a completed task without `completedAt` into the
array. -/
theorem import_breaks_completedAt :
    ¬ ∀ ops : List Op, ∀ t ∈ run ops [], CompletedAtConsistent t := by
  intro h
  have h1 := h [.load (.arr
    [.obj [("id", .num (.finite 1)), ("text", .str "x".toList),
           ("priority", .str "low".toList), ("completed", .bool true)]])]
    { id := .finite 1, text := "x".toList, priority := .low, dueDate := none,
      completed := true, completedAt := .absent }
    (List.mem_singleton.mpr rfl)
  simp [CompletedAtConsistent, Timestamp.isPresent] at h1

/-- C8, instance of the amended invariant: add a task, complete it, import a
completed record that carries its completion time, and reopen the first
task. -/
theorem completedAt_iff_completed_example :
    (∀ op ∈ [Op.add 5 "a".toList .low [], .toggle 9 (.finite 5),
        .load (.arr [.obj [("id", .num (.finite 1)), ("text", .str "x".toList),
          ("priority", .str "low".toList), ("completed", .bool true),
          ("completedAt", .str "2024-01-01T00:00:00.000Z".toList)]]),
        .toggle 11 (.finite 5)],
      op.loadsConsistent = true) ∧
    ∀ t ∈ run [Op.add 5 "a".toList .low [], .toggle 9 (.finite 5),
        .load (.arr [.obj [("id", .num (.finite 1)), ("text", .str "x".toList),
          ("priority", .str "low".toList), ("completed", .bool true),
          ("completedAt", .str "2024-01-01T00:00:00.000Z".toList)]]),
        .toggle 11 (.finite 5)] [],
      CompletedAtConsistent t :=
  ⟨by decide, completedAt_iff_completed _ (by decide)⟩

theorem step_uniqueIds (tasks : List Task) (op : Op)
    (hinv : UniqueIds tasks) (hop : op.bringsFreshIds tasks = true) :
    UniqueIds (step tasks op) := by
  cases op with
  | add now inputValue priority dueDate =>
    simp only [step, addTask]
    split
    · exact hinv
    · rename_i hne
      simp only [Op.bringsFreshIds, Bool.or_eq_true, decide_eq_true_eq, Bool.not_eq_true',
        List.any_eq_false, beq_iff_eq] at hop
      rcases hop with hop | hop
      · exact absurd hop hne
      · simp only [UniqueIds, List.map_cons, List.nodup_cons]
        refine ⟨?_, hinv⟩
        intro hmem
        obtain ⟨u, hu, hid⟩ := List.mem_map.mp hmem
        exact hop u hu hid
  | toggle now id =>
    simp only [step, toggleComplete]
    split
    · rename_i tasks1 heq
      split at heq
      · cases heq
      · cases heq
        simp only [UniqueIds]
        rw [map_id_updateFirst _ (flipCompleted now) _ (fun _ => rfl)]
        exact hinv
    · exact hinv
  | edit id newText =>
    simp only [step, editTask]
    split
    · exact hinv
    · split
      · simp only [UniqueIds]
        rw [map_id_updateFirst _ (fun t => { t with text := newText }) _ (fun _ => rfl)]
        exact hinv
      · exact hinv
  | delete id =>
    simp only [step, deleteTask, UniqueIds]
    exact List.Nodup.sublist ((List.filter_sublist _).map _) hinv
  | load importedTasks =>
    cases importedTasks with
    | arr items =>
      simp only [Op.bringsFreshIds, Bool.and_eq_true, decide_eq_true_eq, List.all_eq_true,
        Bool.not_eq_true', List.any_eq_false, beq_iff_eq] at hop
      simp only [step, importTasks, UniqueIds, List.map_append]
      rw [List.nodup_append]
      refine ⟨hinv, hop.1, ?_⟩
      intro a ha hb
      obtain ⟨u, hu, rfl⟩ := List.mem_map.mp ha
      obtain ⟨t, ht, hid⟩ := List.mem_map.mp hb
      exact hop.2 t ht u hu hid.symm
    | _ => exact hinv
  | clear => simp [step, clearAll, UniqueIds]

theorem run_uniqueIds (ops : List Op) (tasks : List Task)
    (hinv : UniqueIds tasks) (hops : freshIds ops tasks = true) :
    UniqueIds (run ops tasks) := by
  induction ops generalizing tasks with
  | nil => simpa [run] using hinv
  | cons op ops ih =>
    simp only [freshIds, Bool.and_eq_true] at hops
    have := ih (step tasks op) (step_uniqueIds tasks op hinv hops.1) hops.2
    simpa [run] using this

/-- C9, as amended: in every array reached from the empty array by add,
toggle, edit, delete, import and clear-all operations in which every add
reads a clock value that is not the id of a task of the array and every import
accepts records whose ids differ from each other and from the ids of the
array, no two tasks have the same id. -/
theorem ids_unique (ops : List Op) (hops : freshIds ops [] = true) :
    UniqueIds (run ops []) :=
  run_uniqueIds ops [] (by simp [UniqueIds]) hops

/-- C9, counterexample: importing the same one-record file twice leaves two
tasks with the id 1 in the array. -/
theorem import_twice_duplicates_id :
    ¬ ∀ ops : List Op, UniqueIds (run ops []) := by
  intro h
  have h1 := h
    [.load (.arr [.obj [("id", .num (.finite 1)), ("text", .str "x".toList),
       ("priority", .str "low".toList), ("completed", .bool false)]]),
     .load (.arr [.obj [("id", .num (.finite 1)), ("text", .str "x".toList),
       ("priority", .str "low".toList), ("completed", .bool false)]])]
  simp only [UniqueIds] at h1
  revert h1
  decide

/-- C9, instance of the amended invariant: two adds at different clock
values, an import of a record with a third id, a toggle and a delete. -/
theorem ids_unique_example :
    freshIds [Op.add 5 "a".toList .low [], .add 6 "b".toList .high [],
        .load (.arr [.obj [("id", .num (.finite 1)), ("text", .str "x".toList),
          ("priority", .str "low".toList), ("completed", .bool false)]]),
        .toggle 9 (.finite 5), .delete (.finite 6)] [] = true ∧
    UniqueIds (run [Op.add 5 "a".toList .low [], .add 6 "b".toList .high [],
        .load (.arr [.obj [("id", .num (.finite 1)), ("text", .str "x".toList),
          ("priority", .str "low".toList), ("completed", .bool false)]]),
        .toggle 9 (.finite 5), .delete (.finite 6)] []) :=
  ⟨by decide, ids_unique _ (by decide)⟩

/-! ## Concrete instances -/

/-- C3, instance: toggling twice the only task of an array, a completed
one. -/
theorem toggleComplete_twice_example :
    (∃ t ∈ [completedTask 5 0], t.id = .finite 5) ∧
    ∃ pre t post tasks1 t2,
      [completedTask 5 0] = pre ++ t :: post ∧ t.id = .finite 5 ∧
      (∀ u ∈ pre, u.id ≠ .finite 5) ∧
      toggleComplete 1 (.finite 5) [completedTask 5 0] = .ok tasks1 ∧
      toggleComplete 2 (.finite 5) tasks1 = .ok (pre ++ t2 :: post) ∧
      t2.id = t.id ∧ t2.text = t.text ∧ t2.priority = t.priority ∧
      t2.dueDate = t.dueDate ∧ t2.completed = t.completed ∧
      (t.completed = false → t2.completedAt = .json .null) :=
  ⟨⟨_, List.mem_singleton.mpr rfl, rfl⟩,
   toggleComplete_twice 1 2 (.finite 5) [completedTask 5 0]
     ⟨_, List.mem_singleton.mpr rfl, rfl⟩⟩

/-- C6, instance: with one task completed today (day 20000) and one
yesterday, and nothing the day before, the streak is 2. -/
theorem calculateStreak_example :
    calculateStreak utcDay 20000
      [completedTask 1 (20000 * 86400000 + 5), completedTask 2 (19999 * 86400000 + 7)] = 2 :=
  (calculateStreak_spec utcDay 20000
    [completedTask 1 (20000 * 86400000 + 5), completedTask 2 (19999 * 86400000 + 7)]).2.2
    ⟨_, List.mem_cons_self _ _, rfl, by decide⟩
    ⟨_, List.mem_cons_of_mem _ (List.mem_singleton.mpr rfl), rfl, by decide⟩
    (by
      rintro ⟨t, ht, _, hd⟩
      simp only [List.mem_cons, List.mem_singleton, List.not_mem_nil, or_false] at ht
      rcases ht with rfl | rfl
      · revert hd; decide
      · revert hd; decide)

end TodoApp
